import Mathlib

/-!
Verification development for a real-time voice-interview orchestrator.

The definitions below are shallow embeddings of the program's core
functions, translated from the source:

* the Chunker (AWSPollyTTS.split_text_into_chunks in aws_tts.py),
  modelled over List Char with Python string semantics (strip, re.split
  on terminal punctuation, str.split on comma-space);
* the per-session response-timeout watchdog of websocket_api.py
  (start_response_timeout, cancel_response_timeout, _timeout_handler and
  the audio_playback_complete branch of websocket_endpoint), modelled as
  an explicit step function over a per-session state;
* the per-turn audio processing path (VoiceBotWebSocket.process_audio
  and _synthesize_and_send_audio), modelled as a function from the
  recognized transcript and oracles for the external engines to the
  ordered list of outbound actions;
* the completion client (OpenRouterClient.chat_completion in llm.py),
  modelled as a pure state-passing function with the fallible external
  completions API supplied as an oracle.
-/

namespace VoiceBot

/-! ### Python string primitives over List Char -/

/-- Terminal sentence punctuation, the character class of the
regular expression used by the Chunker. -/
def isTerm (c : Char) : Bool := c == '.' || c == '!' || c == '?'

/-- ASCII whitespace as recognized by Python's str.strip and the
regex class \s. -/
def isSpace (c : Char) : Bool :=
  c == ' ' || c == '\t' || c == '\n' || c == '\r' || c == '\x0b' || c == '\x0c'

/-- Right-strip: remove trailing whitespace. -/
def rstrip (s : List Char) : List Char :=
  (s.reverse.dropWhile isSpace).reverse

/-- Python str.strip: remove leading and trailing whitespace. -/
def pstrip (s : List Char) : List Char :=
  (rstrip s).dropWhile isSpace

theorem length_dropWhile_le (p : Char → Bool) :
    ∀ l : List Char, (List.dropWhile p l).length ≤ l.length
  | [] => le_rfl
  | a :: l => by
    rw [List.dropWhile_cons]
    split
    · exact le_trans (length_dropWhile_le p l) (Nat.le_succ _)
    · simp

/-- Scanner mode while splitting on the regular expression of
one-or-more terminal punctuation characters followed by optional
whitespace (re.split in split_text_into_chunks): either accumulating
the current piece, or inside the punctuation run of a match, or inside
the trailing whitespace run of a match. -/
inductive SentMode where
  | piece (acc : List Char)
  | skipTerm
  | skipSpace

/-- One-character-at-a-time splitter equivalent to re.split on the
pattern of a terminal-punctuation run followed by a whitespace run:
each match ends the current piece; a terminal character met right after
a completed match starts a new (empty) piece and a new match. -/
def splitSentencesAux : List Char → SentMode → List (List Char)
  | [], .piece acc => [acc.reverse]
  | [], .skipTerm => [[]]
  | [], .skipSpace => [[]]
  | c :: cs, .piece acc =>
    if isTerm c then acc.reverse :: splitSentencesAux cs .skipTerm
    else splitSentencesAux cs (.piece (c :: acc))
  | c :: cs, .skipTerm =>
    if isTerm c then splitSentencesAux cs .skipTerm
    else if isSpace c then splitSentencesAux cs .skipSpace
    else splitSentencesAux cs (.piece [c])
  | c :: cs, .skipSpace =>
    if isSpace c then splitSentencesAux cs .skipSpace
    else if isTerm c then [] :: splitSentencesAux cs .skipTerm
    else splitSentencesAux cs (.piece [c])

/-- The sentence list the Chunker iterates over: split on terminal
punctuation, strip each piece, drop empty pieces. -/
def sentencesOf (text : List Char) : List (List Char) :=
  ((splitSentencesAux (pstrip text) (.piece [])).map pstrip).filter (fun s => !s.isEmpty)

/-- Python str.split with separator comma-space, used to subdivide a
sentence that alone exceeds the chunk size: cut at each leftmost
occurrence of the two-character separator. -/
def splitCommaAux : List Char → List Char → List (List Char)
  | [], acc => [acc.reverse]
  | [c], acc => [(c :: acc).reverse]
  | c :: c' :: cs, acc =>
    if c = ',' ∧ c' = ' ' then acc.reverse :: splitCommaAux cs []
    else splitCommaAux (c' :: cs) (c :: acc)

def splitComma (s : List Char) : List (List Char) := splitCommaAux s []

/-! ### The Chunker (split_text_into_chunks) -/

/-- The running state of the Chunker loop: emitted chunks plus the
current accumulation buffer. -/
structure ChunkSt where
  chunks : List (List Char)
  current : List Char
deriving DecidableEq

/-- One iteration of the inner loop over the comma-separated parts of an
over-long sentence. -/
def stepPart (maxLen : Nat) (st : ChunkSt) (part : List Char) : ChunkSt :=
  if maxLen < (st.current ++ part).length then
    { chunks := if st.current.isEmpty then st.chunks else st.chunks ++ [pstrip st.current],
      current := part ++ [',', ' '] }
  else
    { chunks := st.chunks, current := st.current ++ part ++ [',', ' '] }

/-- One iteration of the outer loop over sentences. -/
def stepSentence (maxLen : Nat) (st : ChunkSt) (sentence : List Char) : ChunkSt :=
  if maxLen < sentence.length then
    let st1 : ChunkSt :=
      { chunks := if st.current.isEmpty then st.chunks else st.chunks ++ [pstrip st.current],
        current := [] }
    (splitComma sentence).foldl (stepPart maxLen) st1
  else
    if maxLen < (st.current ++ sentence).length then
      { chunks := if st.current.isEmpty then st.chunks else st.chunks ++ [pstrip st.current],
        current := sentence ++ ['.', ' '] }
    else
      { chunks := st.chunks, current := st.current ++ sentence ++ ['.', ' '] }

/-- AWSPollyTTS.split_text_into_chunks: split the text into sentences,
greedily pack them (subdividing over-long sentences at comma-space
boundaries), and flush the final buffer if it strips to something
non-empty. -/
def split_text_into_chunks (maxLen : Nat) (text : List Char) : List (List Char) :=
  let st := (sentencesOf text).foldl (stepSentence maxLen) ⟨[], []⟩
  if (pstrip st.current).isEmpty then st.chunks else st.chunks ++ [pstrip st.current]

/-! ### The per-session timeout watchdog (websocket_api.py)

Per-session state of the watchdog bookkeeping held by VoiceBotWebSocket:
the user_timeout_active flag, the user_timeout_stage counter, and the
asyncio timer tasks running _timeout_handler.  A pending deadline is a
_timeout_handler task that is still sleeping.  The task referenced by
the user_timeout_tasks dict entry is `tracked` (recorded with the stage
value the handler read when it started); tasks that were displaced from
the dict while still sleeping are `orphans` — they can no longer be
cancelled by cancel_response_timeout, which only cancels the dict entry.
`connected` is false once the session has been torn down (disconnect). -/

structure WDState where
  connected : Bool
  active : Bool
  stage : Nat
  tracked : Option Nat
  orphans : List Nat
deriving DecidableEq

/-- State right after VoiceBotWebSocket.connect: no timer entries exist,
so the dict lookups default to inactive / stage 0. -/
def wdInit : WDState := ⟨true, false, 0, none, []⟩

/-- Events of the per-session step relation. playbackComplete is the
client's audio_playback_complete message; audioNonempty is an inbound
audio event whose transcript is non-empty after stripping (the path
that calls cancel_response_timeout); audioEmpty is one whose transcript
strips to empty; fireTracked / fireOrphan are a sleeping
_timeout_handler task reaching its deadline. -/
inductive WDEvent where
  | playbackComplete
  | audioNonempty
  | audioEmpty
  | fireTracked
  | fireOrphan (i : Nat)
  | disconnect
deriving DecidableEq

/-- The body of _timeout_handler after its sleep, for a handler that
captured stage s when it started: re-check the active flag; if the
session is still waiting, emit the stage message; at stage 3 tear the
session down, otherwise advance user_timeout_stage and finish. -/
def wdFire (st : WDState) (s : Nat) (rest : List Nat) (tracked : Option Nat) : WDState :=
  if !st.active then
    { st with tracked := tracked, orphans := rest }
  else if s == 3 then
    { connected := false, active := false, stage := 0, tracked := none, orphans := rest }
  else
    { st with stage := s + 1, tracked := tracked, orphans := rest }

/-- The per-session step function.  Client-originated events are only
processed while the connection is open; a sleeping timer can still
reach its deadline after teardown, in which case the handler sees the
cleared active flag and exits. -/
def wdStep (st : WDState) (e : WDEvent) : WDState :=
  match e with
  | .playbackComplete =>
    if !st.connected then st
    else if st.active then
      -- audio_playback_complete with user_timeout_active set:
      -- unless the interview already ended, clear and re-set the flag and
      -- store a fresh _timeout_handler task in user_timeout_tasks.  The
      -- previous dict entry is overwritten without being cancelled.
      if 3 < st.stage then st
      else
        { st with
          tracked := some st.stage,
          orphans := st.orphans ++ (match st.tracked with | some s => [s] | none => []) }
    else
      -- start_response_timeout with the active flag clear: cancel any
      -- previous dict task, set the flag, stage := 1, new timer task.
      { st with active := true, stage := 1, tracked := some 1 }
  | .audioNonempty =>
    -- cancel_response_timeout: clear flag and stage, cancel and remove
    -- the dict task.
    if !st.connected then st
    else { st with active := false, stage := 0, tracked := none }
  | .audioEmpty => st
  | .fireTracked =>
    match st.tracked with
    | none => st
    | some s => wdFire st s st.orphans none
  | .fireOrphan i =>
    match st.orphans.get? i with
    | none => st
    | some s => wdFire st s (st.orphans.eraseIdx i) st.tracked
  | .disconnect =>
    if !st.connected then st
    else { st with connected := false, active := false, stage := 0, tracked := none }

/-- Run a sequence of events from a state. -/
def wdRun (st : WDState) (es : List WDEvent) : WDState := es.foldl wdStep st

/-- The number of deadline tasks currently pending (sleeping) for the
session: the tracked dict task plus any displaced ones. -/
def pendingCount (st : WDState) : Nat :=
  (match st.tracked with | some _ => 1 | none => 0) + st.orphans.length

/-! ### The completion client (OpenRouterClient.chat_completion, llm.py) -/

inductive Role where
  | system
  | user
  | assistant
deriving DecidableEq

/-- One entry of the messages list / conversation history. -/
structure Msg where
  role : Role
  content : List Char
deriving DecidableEq

/-- The mutable state of OpenRouterClient that chat_completion reads and
writes across calls. -/
structure LLMState where
  conversation_history : List Msg
  interview_completed : Bool
deriving DecidableEq

/-- The reply returned without calling the API once the interview has
been marked completed. -/
def cannedReply : List Char :=
  ("Thank you for completing the screening interview. Our recruitment team " ++
   "will be in touch soon to discuss the next steps. Enjoy the rest of your day!").data

/-- The instruction block appended to the caller's system message. -/
def completionInstructions : List Char :=
  ("\n\nINTERVIEW COMPLETION INSTRUCTIONS:\n" ++
   "When you have finished asking all your interview questions and are ready " ++
   "to end the interview, you MUST include the special marker [INTERVIEW_END] " ++
   "at the very beginning of your final response.\n\n" ++
   "Example: \"[INTERVIEW_END] Thank you for completing the screening interview. " ++
   "Our recruitment team will be in touch soon to discuss the next steps. " ++
   "Enjoy the rest of your day!\"\n\n" ++
   "This marker will signal the system to automatically end the interview session.").data

def enhanceSystem (sys : List Char) : List Char := sys ++ completionInstructions

/-- The end-of-interview marker. -/
def endMarker : List Char := "[INTERVIEW_END]".data

/-- Python str.replace of the marker with the empty string (all
occurrences, leftmost first). -/
def removeMarker : List Char → List Char
  | '[' :: 'I' :: 'N' :: 'T' :: 'E' :: 'R' :: 'V' :: 'I' :: 'E' :: 'W' ::
      '_' :: 'E' :: 'N' :: 'D' :: ']' :: cs => removeMarker cs
  | c :: cs => c :: removeMarker cs
  | [] => []

/-- The error reply produced when the completions call raises. -/
def apiErrorText (e : List Char) : List Char :=
  "Ошибка при обращении к API: ".data ++ e

/-- The request messages list built by chat_completion: the enhanced
system message (when one is given), then the retained conversation
history, then the new user message. -/
def buildMessages (sys : Option (List Char)) (hist : List Msg) (user : List Char) : List Msg :=
  (match sys with
   | some s => [⟨Role.system, enhanceSystem s⟩]
   | none => []) ++ hist ++ [⟨Role.user, user⟩]

/-- OpenRouterClient.chat_completion.  The external completions API is
an oracle from the request to either the reply content or an exception
(an exception also models a None content, whose startswith call raises
inside the same try block).  Returns ((reply text, interview-ended
flag), the client state after the call, the request that was sent to
the API if one was sent). -/
def chat_completion (st : LLMState) (user_message : List Char)
    (system_message : Option (List Char))
    (api : List Msg → Except (List Char) (List Char)) :
    (List Char × Bool) × LLMState × Option (List Msg) :=
  if st.interview_completed then
    ((cannedReply, true), st, none)
  else
    let msgs := buildMessages system_message st.conversation_history user_message
    match api msgs with
    | .error e => ((apiErrorText e, false), st, some msgs)
    | .ok content =>
      let interview_ended := endMarker.isPrefixOf content
      let assistant := if interview_ended then pstrip (removeMarker content) else content
      let hist1 := st.conversation_history ++
        [⟨Role.user, user_message⟩, ⟨Role.assistant, assistant⟩]
      let hist2 := if 10 < hist1.length then hist1.drop (hist1.length - 10) else hist1
      ((assistant, interview_ended),
       ⟨hist2, if interview_ended then true else st.interview_completed⟩,
       some msgs)

/-! ### The per-turn audio processing path (websocket_api.py)

VoiceBotWebSocket.process_audio and _synthesize_and_send_audio, modelled
as functions from the recognized transcript and oracles for the external
engines to the ordered list of outbound websocket messages and internal
operations of the turn. -/

/-- A Python value that can appear as the bot reply: chat_completion
returns a (text, flag) tuple, and process_audio stores that return value
unchanged in bot_response. -/
inductive PyVal where
  | str (s : List Char)
  | pair (s : List Char) (ended : Bool)
deriving DecidableEq

/-- The observable actions of one turn, in program order. -/
inductive PAAction where
  | statusRecognizing
  | statusEmptyResult
  | cancelTimeout
  | userTextMsg (t : List Char)
  | statusThinking
  | llmCall (user : List Char)
  | botTextMsg (v : PyVal)
  | statusSpeaking
  | audioChunkMsg (idx : Nat) (total : Nat)
  | synthesisError
  | completedMsg
  | processError
deriving DecidableEq

/-- The loop of _synthesize_and_send_audio over the chunk list: the i-th
synthesis call either yields audio (the chunk is sent with its index and
the total count) or fails (synthesize_chunk returns None and the chunk
is skipped). -/
def sendChunks (total : Nat) (synth : Nat → Option (List Char)) :
    Nat → List (List Char) → List PAAction
  | _, [] => []
  | i, _ :: rest =>
    (match synth i with
     | some _ => [PAAction.audioChunkMsg i total]
     | none => []) ++ sendChunks total synth (i + 1) rest

/-- VoiceBotWebSocket._synthesize_and_send_audio applied to a text
string: chunk it and send the synthesized chunks in order. -/
def synthesizeAndSend (maxLen : Nat) (text : List Char)
    (synth : Nat → Option (List Char)) : List PAAction :=
  sendChunks (split_text_into_chunks maxLen text).length synth 0
    (split_text_into_chunks maxLen text)

/-- _synthesize_and_send_audio applied to the dynamic value process_audio
passes it: a tuple is not a string, so split_text_into_chunks raises on
text.strip() and the handler reports a synthesis error instead of
sending any chunk. -/
def synthesizeAndSendVal (maxLen : Nat) (v : PyVal)
    (synth : Nat → Option (List Char)) : List PAAction :=
  match v with
  | .str s => synthesizeAndSend maxLen s synth
  | .pair _ _ => [PAAction.synthesisError]

/-- The completion of a turn's delivery as sequenced by process_audio:
_synthesize_and_send_audio for the reply, then the completed message. -/
def deliverTurn (maxLen : Nat) (text : List Char)
    (synth : Nat → Option (List Char)) : List PAAction :=
  synthesizeAndSend maxLen text synth ++ [PAAction.completedMsg]

/-- VoiceBotWebSocket.process_audio, given the transcript returned by
the STT engine.  inSessions is whether user_id is in user_sessions
(when it is not, bot_response is never assigned and the following print
raises a NameError that the outer handler converts into an error
message).  llm is the reply of the per-user chat_completion call —
a (text, interview-ended) tuple that process_audio never unpacks. -/
def process_audio (userText : List Char) (inSessions : Bool)
    (llm : List Char → List Char × Bool) (maxLen : Nat)
    (synth : Nat → Option (List Char)) : List PAAction :=
  [PAAction.statusRecognizing] ++
  (if (pstrip userText).isEmpty then
    [PAAction.statusEmptyResult]
  else
    [PAAction.cancelTimeout, PAAction.userTextMsg userText, PAAction.statusThinking] ++
    (if inSessions then
      let reply := llm userText
      [PAAction.llmCall userText,
       PAAction.botTextMsg (PyVal.pair reply.1 reply.2),
       PAAction.statusSpeaking] ++
      synthesizeAndSendVal maxLen (PyVal.pair reply.1 reply.2) synth ++
      [PAAction.completedMsg]
    else
      [PAAction.processError]))

/-! ### Basic facts about the string primitives -/

theorem rstrip_append_space (xs : List Char) : rstrip (xs ++ [' ']) = rstrip xs := by
  unfold rstrip
  rw [List.reverse_append]
  simp only [List.reverse_cons, List.reverse_nil, List.nil_append, List.singleton_append]
  rw [List.dropWhile_cons_of_pos (by decide : isSpace ' ' = true)]

theorem pstrip_append_space (xs : List Char) : pstrip (xs ++ [' ']) = pstrip xs := by
  unfold pstrip
  rw [rstrip_append_space]

theorem length_rstrip_le (s : List Char) : (rstrip s).length ≤ s.length := by
  unfold rstrip
  rw [List.length_reverse]
  calc (s.reverse.dropWhile isSpace).length ≤ s.reverse.length := length_dropWhile_le _ _
    _ = s.length := List.length_reverse s

theorem length_pstrip_le (s : List Char) : (pstrip s).length ≤ s.length := by
  unfold pstrip
  exact le_trans (length_dropWhile_le _ _) (length_rstrip_le s)

/-! ### Fragment length bound (Chunker) -/

/-- A fragment is good when it respects the packing bound of one more
than the configured maximum (the loop measures the buffer before adding
the two-character separator and the final strip removes the trailing
space), unless it descends from an admissible oversize comma piece, in
which case it is at most one longer than that piece. -/
def GoodChunk (maxLen : Nat) (W : List Char → Prop) (c : List Char) : Prop :=
  c.length ≤ maxLen + 1 ∨ ∃ p, W p ∧ maxLen < p.length ∧ c.length ≤ p.length + 1

/-- The accumulation buffer is either empty or a good core followed by
the trailing space of the last separator. -/
def GoodCur (maxLen : Nat) (W : List Char → Prop) (cur : List Char) : Prop :=
  cur = [] ∨ ∃ core, cur = core ++ [' '] ∧ GoodChunk maxLen W core

/-- Invariant of the Chunker loop state. -/
def ChunkInv (maxLen : Nat) (W : List Char → Prop) (st : ChunkSt) : Prop :=
  (∀ c ∈ st.chunks, GoodChunk maxLen W c) ∧ GoodCur maxLen W st.current

theorem goodChunk_of_le {maxLen : Nat} {W : List Char → Prop} {c c' : List Char}
    (hlen : c'.length ≤ c.length) (h : GoodChunk maxLen W c) : GoodChunk maxLen W c' := by
  rcases h with h | ⟨p, hw, hp, hc⟩
  · exact Or.inl (le_trans hlen h)
  · exact Or.inr ⟨p, hw, hp, le_trans hlen hc⟩

theorem goodChunk_pstrip {maxLen : Nat} {W : List Char → Prop} {cur : List Char}
    (h : GoodCur maxLen W cur) : GoodChunk maxLen W (pstrip cur) := by
  rcases h with rfl | ⟨core, rfl, hcore⟩
  · exact Or.inl (by simp [pstrip, rstrip])
  · rw [pstrip_append_space]
    exact goodChunk_of_le (length_pstrip_le core) hcore

theorem goodChunks_flush {maxLen : Nat} {W : List Char → Prop} {st : ChunkSt}
    (h : ChunkInv maxLen W st) :
    ∀ c ∈ (if st.current.isEmpty then st.chunks else st.chunks ++ [pstrip st.current]),
      GoodChunk maxLen W c := by
  intro c hc
  split at hc
  · exact h.1 c hc
  · rcases List.mem_append.mp hc with hc | hc
    · exact h.1 c hc
    · rw [List.mem_singleton.mp hc]
      exact goodChunk_pstrip h.2

theorem stepPart_inv {maxLen : Nat} {W : List Char → Prop} {st : ChunkSt} {part : List Char}
    (h : ChunkInv maxLen W st) (hpart : maxLen < part.length → W part) :
    ChunkInv maxLen W (stepPart maxLen st part) := by
  unfold stepPart
  split
  · refine ⟨goodChunks_flush h, Or.inr ⟨part ++ [','], by simp, ?_⟩⟩
    by_cases hlong : maxLen < part.length
    · exact Or.inr ⟨part, hpart hlong, hlong, by simp⟩
    · exact Or.inl (by simp; omega)
  · rename_i hfit
    refine ⟨h.1, Or.inr ⟨st.current ++ part ++ [','], by simp, Or.inl ?_⟩⟩
    simp only [not_lt, List.length_append, List.length_singleton] at hfit ⊢
    omega

theorem foldParts_inv {maxLen : Nat} {W : List Char → Prop} :
    ∀ (parts : List (List Char)) (st : ChunkSt), ChunkInv maxLen W st →
      (∀ p ∈ parts, maxLen < p.length → W p) →
      ChunkInv maxLen W (parts.foldl (stepPart maxLen) st)
  | [], st, h, _ => h
  | p :: parts, st, h, hadm => by
    rw [List.foldl_cons]
    exact foldParts_inv parts _ (stepPart_inv h (hadm p (by simp)))
      (fun q hq => hadm q (by simp [hq]))

theorem stepSentence_inv {maxLen : Nat} {W : List Char → Prop} {st : ChunkSt}
    {sentence : List Char} (h : ChunkInv maxLen W st)
    (hadm : maxLen < sentence.length → ∀ p ∈ splitComma sentence, maxLen < p.length → W p) :
    ChunkInv maxLen W (stepSentence maxLen st sentence) := by
  unfold stepSentence
  split
  · rename_i hlong
    exact foldParts_inv _ _ ⟨goodChunks_flush h, Or.inl rfl⟩ (hadm hlong)
  · rename_i hshort
    split
    · rename_i hover
      refine ⟨goodChunks_flush h, Or.inr ⟨sentence ++ ['.'], by simp, Or.inl ?_⟩⟩
      simp only [not_lt] at hshort
      simp
      omega
    · rename_i hfit
      refine ⟨h.1, Or.inr ⟨st.current ++ sentence ++ ['.'], by simp, Or.inl ?_⟩⟩
      simp only [not_lt, List.length_append, List.length_singleton] at hfit ⊢
      omega

theorem foldSentences_inv {maxLen : Nat} {W : List Char → Prop} :
    ∀ (sents : List (List Char)) (st : ChunkSt), ChunkInv maxLen W st →
      (∀ s ∈ sents, maxLen < s.length → ∀ p ∈ splitComma s, maxLen < p.length → W p) →
      ChunkInv maxLen W (sents.foldl (stepSentence maxLen) st)
  | [], st, h, _ => h
  | s :: sents, st, h, hadm => by
    rw [List.foldl_cons]
    exact foldSentences_inv sents _ (stepSentence_inv h (hadm s (by simp)))
      (fun q hq => hadm q (by simp [hq]))

/-- The oversize witnesses available for a given input text: the
comma-space pieces of the sentences that alone exceed the bound. -/
def OversizePiece (maxLen : Nat) (text : List Char) (p : List Char) : Prop :=
  ∃ s ∈ sentencesOf text, maxLen < s.length ∧ p ∈ splitComma s

/-- C2 (amended): every fragment emitted by the Chunker has length at
most maxLen + 1, except fragments descending from a comma-delimited
piece that alone exceeds the bound, which are kept whole (at most the
piece plus its trailing comma). -/
theorem chunker_fragment_length_bound (maxLen : Nat) (text : List Char) :
    ∀ c ∈ split_text_into_chunks maxLen text,
      c.length ≤ maxLen + 1 ∨
        ∃ s ∈ sentencesOf text, maxLen < s.length ∧
          ∃ p ∈ splitComma s, maxLen < p.length ∧ c.length ≤ p.length + 1 := by
  intro c hc
  have hinv : ChunkInv maxLen (OversizePiece maxLen text)
      ((sentencesOf text).foldl (stepSentence maxLen) ⟨[], []⟩) := by
    refine foldSentences_inv _ _ ⟨by simp, Or.inl rfl⟩ ?_
    intro s hs hlong p hp _
    exact ⟨s, hs, hlong, hp⟩
  have hgood : GoodChunk maxLen (OversizePiece maxLen text) c := by
    simp only [split_text_into_chunks] at hc
    split at hc
    · exact hinv.1 c hc
    · rcases List.mem_append.mp hc with hc | hc
      · exact hinv.1 c hc
      · rw [List.mem_singleton.mp hc]
        exact goodChunk_pstrip hinv.2
  rcases hgood with h | ⟨p, ⟨s, hs, hlong, hp⟩, hplen, hclen⟩
  · exact Or.inl h
  · exact Or.inr ⟨s, hs, hlong, p, hp, hplen, hclen⟩

/-! ### Content preservation (Chunker)

The Chunker only ever deletes or inserts separator material: terminal
punctuation, the comma of a comma-space split, and whitespace.  Erasing
those characters from the concatenated fragments recovers exactly their
erasure from the input text. -/

/-- Separator material: the characters the Chunker may delete from the
input (sentence terminators, the comma-space split, whitespace) and the
characters it inserts between units. -/
def isSepChar (c : Char) : Bool := isTerm c || isSpace c || c == ','

/-- Erase all separator material, keeping everything else in order. -/
def scrub (s : List Char) : List Char := s.filter (fun c => !isSepChar c)

@[simp] theorem scrub_nil : scrub [] = [] := rfl

theorem scrub_append (a b : List Char) : scrub (a ++ b) = scrub a ++ scrub b :=
  List.filter_append a b

theorem scrub_cons (c : Char) (l : List Char) :
    scrub (c :: l) = (if !isSepChar c then [c] else []) ++ scrub l := by
  by_cases h : isSepChar c = true <;> simp [scrub, List.filter_cons, h]

theorem scrub_cons_of_sep {c : Char} (h : isSepChar c = true) (l : List Char) :
    scrub (c :: l) = scrub l := by
  rw [scrub_cons, h]
  rfl

theorem isSepChar_of_isTerm {c : Char} (h : isTerm c = true) : isSepChar c = true := by
  simp [isSepChar, h]

theorem isSepChar_of_isSpace {c : Char} (h : isSpace c = true) : isSepChar c = true := by
  simp [isSepChar, h]

theorem scrub_dropWhile (p : Char → Bool) (hp : ∀ c, p c = true → isSepChar c = true) :
    ∀ l : List Char, scrub (l.dropWhile p) = scrub l
  | [] => rfl
  | a :: l => by
    rw [List.dropWhile_cons]
    split
    · rename_i h
      rw [scrub_dropWhile p hp l, scrub_cons_of_sep (hp a h)]
    · rfl

theorem scrub_reverse (l : List Char) : scrub l.reverse = (scrub l).reverse :=
  List.filter_reverse _ l

theorem scrub_rstrip (s : List Char) : scrub (rstrip s) = scrub s := by
  unfold rstrip
  rw [scrub_reverse, scrub_dropWhile isSpace (fun c => isSepChar_of_isSpace) s.reverse,
    scrub_reverse, List.reverse_reverse]

theorem scrub_pstrip (s : List Char) : scrub (pstrip s) = scrub s := by
  unfold pstrip
  rw [scrub_dropWhile isSpace (fun c => isSepChar_of_isSpace), scrub_rstrip]

theorem scrub_eq_nil_of_pstrip_eq_nil {s : List Char} (h : pstrip s = []) : scrub s = [] := by
  rw [← scrub_pstrip s, h, scrub_nil]

/-- The piece content already accumulated by the sentence scanner. -/
def sentModeContent (m : SentMode) : List Char :=
  match m with
  | .piece acc => scrub acc.reverse
  | .skipTerm => []
  | .skipSpace => []

theorem scrub_flatten_splitSentencesAux :
    ∀ (s : List Char) (m : SentMode),
      scrub (List.flatten (splitSentencesAux s m)) = sentModeContent m ++ scrub s
  | [], .piece acc => by simp [splitSentencesAux, sentModeContent]
  | [], .skipTerm => by simp [splitSentencesAux, sentModeContent]
  | [], .skipSpace => by simp [splitSentencesAux, sentModeContent]
  | c :: cs, .piece acc => by
    simp only [splitSentencesAux]
    split
    · rename_i h
      rw [List.flatten_cons, scrub_append, scrub_flatten_splitSentencesAux cs .skipTerm,
        scrub_cons_of_sep (isSepChar_of_isTerm h)]
      simp [sentModeContent]
    · rw [scrub_flatten_splitSentencesAux cs (.piece (c :: acc))]
      simp [sentModeContent, List.reverse_cons, scrub_append, scrub_cons, List.append_assoc]
  | c :: cs, .skipTerm => by
    simp only [splitSentencesAux]
    split
    · rename_i h
      rw [scrub_flatten_splitSentencesAux cs .skipTerm,
        scrub_cons_of_sep (isSepChar_of_isTerm h)]
    · split
      · rename_i h
        rw [scrub_flatten_splitSentencesAux cs .skipSpace,
          scrub_cons_of_sep (isSepChar_of_isSpace h)]
        simp [sentModeContent]
      · rw [scrub_flatten_splitSentencesAux cs (.piece [c])]
        simp [sentModeContent, scrub_cons]
  | c :: cs, .skipSpace => by
    simp only [splitSentencesAux]
    split
    · rename_i h
      rw [scrub_flatten_splitSentencesAux cs .skipSpace,
        scrub_cons_of_sep (isSepChar_of_isSpace h)]
    · split
      · rename_i h
        rw [List.flatten_cons, scrub_append, scrub_flatten_splitSentencesAux cs .skipTerm,
          scrub_cons_of_sep (isSepChar_of_isTerm h)]
        simp [sentModeContent]
      · rw [scrub_flatten_splitSentencesAux cs (.piece [c])]
        simp [sentModeContent, scrub_cons]

theorem flatten_filter_nonEmpty :
    ∀ l : List (List Char), (l.filter (fun s => !s.isEmpty)).flatten = l.flatten
  | [] => rfl
  | a :: l => by
    rw [List.filter_cons]
    split
    · rw [List.flatten_cons, List.flatten_cons, flatten_filter_nonEmpty l]
    · rename_i h
      have ha : a = [] := by
        simp only [Bool.not_eq_true', Bool.not_eq_false] at h
        exact List.isEmpty_iff.mp h
      rw [flatten_filter_nonEmpty l, ha, List.flatten_cons]
      rfl

theorem scrub_flatten_map_pstrip :
    ∀ l : List (List Char), scrub (l.map pstrip).flatten = scrub l.flatten
  | [] => rfl
  | a :: l => by
    rw [List.map_cons, List.flatten_cons, List.flatten_cons, scrub_append, scrub_append,
      scrub_pstrip, scrub_flatten_map_pstrip l]

theorem scrub_flatten_sentencesOf (text : List Char) :
    scrub (sentencesOf text).flatten = scrub text := by
  unfold sentencesOf
  rw [flatten_filter_nonEmpty, scrub_flatten_map_pstrip,
    scrub_flatten_splitSentencesAux (pstrip text) (.piece []), scrub_pstrip]
  rfl

theorem scrub_flatten_splitCommaAux :
    ∀ (s : List Char) (acc : List Char),
      scrub (List.flatten (splitCommaAux s acc)) = scrub acc.reverse ++ scrub s
  | [], acc => by simp [splitCommaAux, scrub_nil]
  | [c], acc => by
    simp only [splitCommaAux, List.flatten_cons, List.flatten_nil, List.append_nil,
      List.reverse_cons]
    rw [scrub_append]
  | c :: c' :: cs, acc => by
    simp only [splitCommaAux]
    split
    · rename_i h
      rw [List.flatten_cons, scrub_append, scrub_flatten_splitCommaAux cs []]
      rw [h.1, h.2, scrub_cons_of_sep (by decide), scrub_cons_of_sep (by decide)]
      rfl
    · rw [scrub_flatten_splitCommaAux (c' :: cs) (c :: acc)]
      simp only [List.reverse_cons]
      rw [scrub_append]
      simp [scrub_cons, List.append_assoc]

theorem scrub_flatten_splitComma (s : List Char) :
    scrub (List.flatten (splitComma s)) = scrub s := by
  unfold splitComma
  rw [scrub_flatten_splitCommaAux s []]
  rfl

theorem scrub_comma_space : scrub [',', ' '] = [] := rfl

theorem scrub_dot_space : scrub ['.', ' '] = [] := rfl

/-- The non-separator content carried by a Chunker loop state. -/
def contentOf (st : ChunkSt) : List Char :=
  scrub st.chunks.flatten ++ scrub st.current

theorem flush_content (st : ChunkSt) :
    scrub (List.flatten (if st.current.isEmpty then st.chunks
        else st.chunks ++ [pstrip st.current])) = contentOf st := by
  unfold contentOf
  split
  · rename_i h
    rw [List.isEmpty_iff.mp h]
    simp
  · rw [List.flatten_append, scrub_append]
    simp [scrub_pstrip]

theorem stepPart_content (maxLen : Nat) (st : ChunkSt) (part : List Char) :
    contentOf (stepPart maxLen st part) = contentOf st ++ scrub part := by
  unfold stepPart
  split
  · show scrub (List.flatten (if st.current.isEmpty then st.chunks
        else st.chunks ++ [pstrip st.current])) ++ scrub (part ++ [',', ' ']) = _
    rw [flush_content, scrub_append, scrub_comma_space]
    simp [contentOf, List.append_assoc]
  · show scrub st.chunks.flatten ++ scrub (st.current ++ part ++ [',', ' ']) = _
    rw [scrub_append, scrub_append, scrub_comma_space]
    simp [contentOf, List.append_assoc]

theorem foldParts_content (maxLen : Nat) :
    ∀ (parts : List (List Char)) (st : ChunkSt),
      contentOf (parts.foldl (stepPart maxLen) st) = contentOf st ++ scrub parts.flatten
  | [], st => by simp
  | p :: parts, st => by
    rw [List.foldl_cons, foldParts_content maxLen parts (stepPart maxLen st p),
      stepPart_content, List.flatten_cons, scrub_append, List.append_assoc]

theorem stepSentence_content (maxLen : Nat) (st : ChunkSt) (s : List Char) :
    contentOf (stepSentence maxLen st s) = contentOf st ++ scrub s := by
  unfold stepSentence
  split
  · rw [foldParts_content]
    have h1 : contentOf ⟨(if st.current.isEmpty then st.chunks
        else st.chunks ++ [pstrip st.current]), []⟩ = contentOf st := by
      show scrub (List.flatten _) ++ scrub [] = _
      rw [flush_content, scrub_nil, List.append_nil]
    rw [h1, scrub_flatten_splitComma]
  · split
    · show scrub (List.flatten (if st.current.isEmpty then st.chunks
          else st.chunks ++ [pstrip st.current])) ++ scrub (s ++ ['.', ' ']) = _
      rw [flush_content, scrub_append, scrub_dot_space]
      simp
    · show scrub st.chunks.flatten ++ scrub (st.current ++ s ++ ['.', ' ']) = _
      rw [scrub_append, scrub_append, scrub_dot_space]
      simp [contentOf, List.append_assoc]

theorem foldSentences_content (maxLen : Nat) :
    ∀ (sents : List (List Char)) (st : ChunkSt),
      contentOf (sents.foldl (stepSentence maxLen) st) = contentOf st ++ scrub sents.flatten
  | [], st => by simp
  | s :: sents, st => by
    rw [List.foldl_cons, foldSentences_content maxLen sents (stepSentence maxLen st s),
      stepSentence_content, List.flatten_cons, scrub_append, List.append_assoc]

/-- C9: for every input string and fixed maximum chunk size, the
fragments emitted by the Chunker carry exactly the non-separator
content of the input, in order: erasing the separator material the
Chunker adds or removes (sentence terminators, the comma-space split
points, whitespace) from the concatenated fragments recovers the same
erasure of the original text, so no content is lost or altered by
chunking. -/
theorem chunker_content_recovery (maxLen : Nat) (text : List Char) :
    scrub (split_text_into_chunks maxLen text).flatten = scrub text := by
  have h : contentOf ((sentencesOf text).foldl (stepSentence maxLen) ⟨[], []⟩) = scrub text := by
    rw [foldSentences_content, scrub_flatten_sentencesOf]
    simp [contentOf, scrub]
  unfold contentOf at h
  simp only [split_text_into_chunks]
  split
  · rename_i hemp
    have hcur := scrub_eq_nil_of_pstrip_eq_nil (List.isEmpty_iff.mp hemp)
    rw [hcur, List.append_nil] at h
    exact h
  · rw [List.flatten_append, scrub_append]
    simp only [List.flatten_cons, List.flatten_nil, List.append_nil]
    rw [scrub_pstrip]
    exact h

/-- C2 counterexample: with maximum 5 and the input text "ab. c." the
Chunker emits the single fragment "ab. c." of length 6, exceeding the
maximum, while no comma-delimited piece of any sentence of the input
exceeds the maximum — so fragments can exceed the bound even without an
oversize comma-delimited piece. -/
theorem chunker_bound_counterexample :
    ∃ c ∈ split_text_into_chunks 5 ['a', 'b', '.', ' ', 'c', '.'], 5 < c.length ∧
      ∀ s ∈ sentencesOf ['a', 'b', '.', ' ', 'c', '.'], ∀ p ∈ splitComma s, p.length ≤ 5 := by
  decide

theorem chunker_fragment_length_bound_witness :
    (['a', 'b', '.', ' ', 'c', '.'] ∈ split_text_into_chunks 5 ['a', 'b', '.', ' ', 'c', '.']) ∧
      ((['a', 'b', '.', ' ', 'c', '.'] : List Char).length ≤ 5 + 1 ∨
        ∃ s ∈ sentencesOf ['a', 'b', '.', ' ', 'c', '.'], 5 < s.length ∧
          ∃ p ∈ splitComma s, 5 < p.length ∧
            (['a', 'b', '.', ' ', 'c', '.'] : List Char).length ≤ p.length + 1) :=
  ⟨by decide,
   chunker_fragment_length_bound 5 ['a', 'b', '.', ' ', 'c', '.']
     ['a', 'b', '.', ' ', 'c', '.'] (by decide)⟩

/-! ### Watchdog invariants -/

/-- Invariant of the watchdog state under the intended client
discipline: no displaced deadline tasks exist, the tracked task's
captured stage is the current stage of an active session, an active
session's stage is between 1 and 3, and an inactive session has stage 0
and no tracked task. -/
def WDInv (st : WDState) : Prop :=
  st.orphans = [] ∧
  (∀ s, st.tracked = some s → st.active = true ∧ s = st.stage) ∧
  (st.active = true → 1 ≤ st.stage ∧ st.stage ≤ 3) ∧
  (st.active = false → st.stage = 0 ∧ st.tracked = none)

theorem wdInv_init : WDInv wdInit := by
  refine ⟨rfl, ?_, ?_, ?_⟩ <;> simp [wdInit]

theorem wdInv_step {st : WDState} {e : WDEvent} (h : WDInv st)
    (hq : e = WDEvent.playbackComplete → pendingCount st = 0) :
    WDInv (wdStep st e) ∧
      ((wdStep st e).stage = st.stage ∨ (wdStep st e).stage = st.stage + 1 ∨
        (wdStep st e).stage = 0) := by
  obtain ⟨conn, act, stg, trk, orph⟩ := st
  obtain ⟨ho, htr, hab, hnb⟩ := h
  simp only at ho htr hab hnb
  subst ho
  cases e with
  | playbackComplete =>
    have hp := hq rfl
    simp only [pendingCount] at hp
    cases trk with
    | some s => simp at hp
    | none =>
      cases conn with
      | false => exact ⟨⟨rfl, htr, hab, hnb⟩, Or.inl rfl⟩
      | true =>
        cases act with
        | false =>
          have hstg := (hnb rfl).1
          refine ⟨⟨?_, ?_, ?_, ?_⟩, ?_⟩
          · simp [wdStep]
          · intro s hs
            simp [wdStep] at hs ⊢
            omega
          · simp [wdStep]
          · simp [wdStep]
          · simp [wdStep]
            omega
        | true =>
          have hb := hab rfl
          have h3 : ¬ 3 < stg := by omega
          refine ⟨⟨?_, ?_, ?_, ?_⟩, ?_⟩
          · simp [wdStep, h3]
          · intro s hs
            simp [wdStep, h3] at hs ⊢
            omega
          · simp [wdStep, h3]
            omega
          · simp [wdStep, h3]
          · simp [wdStep, h3]
  | audioNonempty =>
    cases conn with
    | false => exact ⟨⟨rfl, htr, hab, hnb⟩, Or.inl rfl⟩
    | true =>
      refine ⟨⟨?_, ?_, ?_, ?_⟩, ?_⟩ <;> simp [wdStep]
  | audioEmpty => exact ⟨⟨rfl, htr, hab, hnb⟩, Or.inl rfl⟩
  | fireTracked =>
    cases trk with
    | none => exact ⟨⟨rfl, htr, hab, hnb⟩, Or.inl rfl⟩
    | some s =>
      obtain ⟨ha, hs⟩ := htr s rfl
      subst ha
      subst hs
      have hb := hab rfl
      by_cases h3 : s = 3
      · refine ⟨⟨?_, ?_, ?_, ?_⟩, ?_⟩ <;> simp [wdStep, wdFire, h3]
      · have h3' : (s == 3) = false := by simp [h3]
        refine ⟨⟨?_, ?_, ?_, ?_⟩, ?_⟩
        · simp [wdStep, wdFire, h3']
        · intro u hu
          simp [wdStep, wdFire, h3'] at hu
        · simp [wdStep, wdFire, h3']
          omega
        · simp [wdStep, wdFire, h3']
        · simp [wdStep, wdFire, h3']
  | fireOrphan i => exact ⟨⟨rfl, htr, hab, hnb⟩, Or.inl rfl⟩
  | disconnect =>
    cases conn with
    | false => exact ⟨⟨rfl, htr, hab, hnb⟩, Or.inl rfl⟩
    | true =>
      refine ⟨⟨?_, ?_, ?_, ?_⟩, ?_⟩ <;> simp [wdStep]

/-- Reachability under the intended client discipline: the
audio_playback_complete message is only handled at instants with no
deadline task pending for the session (the client reports the end of an
audio it was sent, after the handler that sent it has finished). -/
inductive ReachableQ : WDState → Prop where
  | init : ReachableQ wdInit
  | step (st : WDState) (e : WDEvent) :
      ReachableQ st → (e = WDEvent.playbackComplete → pendingCount st = 0) →
      ReachableQ (wdStep st e)

theorem wdInv_of_reachableQ {st : WDState} (h : ReachableQ st) : WDInv st := by
  induction h with
  | init => exact wdInv_init
  | step st e hst hq ih => exact (wdInv_step ih hq).1

/-- C1 (the code violates the claim): starting from a fresh session,
two audio_playback_complete events in a row leave two _timeout_handler
deadline tasks pending for the same session.  The first arms a deadline
via start_response_timeout; the second takes the active-flag branch of
websocket_endpoint, which stores a fresh timer task into
user_timeout_tasks without cancelling the still-sleeping previous one —
stacking, not replacing, the single current-deadline handle. -/
theorem watchdog_stacked_pending_deadlines :
    pendingCount (wdRun wdInit
      [WDEvent.playbackComplete, WDEvent.playbackComplete]) = 2 := by
  decide

/-- C6 counterexample: in the unrestricted event relation the stacking
race lets a stale displaced deadline fire after stage 3 has been
reached and assign the stage back to 2, on a session that is still
connected and waiting — stage progression reverses without any
transcript-driven reset. -/
theorem watchdog_stage_reversal_counterexample :
    (wdRun wdInit [WDEvent.playbackComplete, WDEvent.playbackComplete,
      WDEvent.fireTracked, WDEvent.playbackComplete, WDEvent.fireTracked]).stage = 3 ∧
    (wdRun wdInit [WDEvent.playbackComplete, WDEvent.playbackComplete,
      WDEvent.fireTracked, WDEvent.playbackComplete, WDEvent.fireTracked,
      WDEvent.fireOrphan 0]).stage = 2 ∧
    (wdRun wdInit [WDEvent.playbackComplete, WDEvent.playbackComplete,
      WDEvent.fireTracked, WDEvent.playbackComplete, WDEvent.fireTracked,
      WDEvent.fireOrphan 0]).connected = true ∧
    (wdRun wdInit [WDEvent.playbackComplete, WDEvent.playbackComplete,
      WDEvent.fireTracked, WDEvent.playbackComplete, WDEvent.fireTracked,
      WDEvent.fireOrphan 0]).active = true := by
  decide

/-- C6 (amended): along executions in which each playback-complete
event is handled at an instant with no deadline task pending for the
session (the intended client discipline, which excludes the
deadline-stacking race of the playback-complete branch), the watchdog
stage moves only monotonically and one step at a time: every transition
keeps the stage, advances it by exactly one (arming Idle to stage 1, or
a deadline firing below stage 3), or resets it to idle / terminates
(non-empty transcript, stage-3 expiry, disconnect); it never skips a
stage, never falls back to a lower non-idle stage, and stays at most
3. -/
theorem watchdog_stage_monotonic_quiescent {st : WDState} {e : WDEvent}
    (hr : ReachableQ st) (hq : e = WDEvent.playbackComplete → pendingCount st = 0) :
    ((wdStep st e).stage = st.stage ∨ (wdStep st e).stage = st.stage + 1 ∨
      (wdStep st e).stage = 0) ∧ (wdStep st e).stage ≤ 3 := by
  have hinv := wdInv_of_reachableQ hr
  have hstep := wdInv_step hinv hq
  refine ⟨hstep.2, ?_⟩
  obtain ⟨-, -, hab, hnb⟩ := hstep.1
  cases hact : (wdStep st e).active with
  | true => exact (hab hact).2
  | false =>
    have := (hnb hact).1
    omega

theorem watchdog_stage_monotonic_quiescent_witness :
    ((wdStep wdInit WDEvent.playbackComplete).stage = wdInit.stage ∨
      (wdStep wdInit WDEvent.playbackComplete).stage = wdInit.stage + 1 ∨
      (wdStep wdInit WDEvent.playbackComplete).stage = 0) ∧
      (wdStep wdInit WDEvent.playbackComplete).stage ≤ 3 :=
  watchdog_stage_monotonic_quiescent ReachableQ.init (fun _ => by decide)

/-! ### Per-turn processing: cancel discipline, reply payload, pipeline -/

/-- C3: on every inbound audio event processed by process_audio, a
transcript that is non-empty after stripping causes
cancel_response_timeout to run before anything else of the turn — in
particular before the LLM completion call begins (every llmCall action
lies strictly after the cancelTimeout action) — while a transcript that
strips to empty never cancels the pending deadline at all. -/
theorem transcript_cancel_discipline (t : List Char) (inS : Bool)
    (llm : List Char → List Char × Bool) (maxLen : Nat)
    (synth : Nat → Option (List Char)) :
    ((pstrip t).isEmpty = true →
      PAAction.cancelTimeout ∉ process_audio t inS llm maxLen synth) ∧
    ((pstrip t).isEmpty = false →
      ∃ rest, process_audio t inS llm maxLen synth =
          PAAction.statusRecognizing :: PAAction.cancelTimeout :: rest ∧
        ∀ u, PAAction.llmCall u ∈ process_audio t inS llm maxLen synth →
          PAAction.llmCall u ∈ rest) := by
  constructor
  · intro h
    simp [process_audio, h]
  · intro h
    refine ⟨(if inS then
        [PAAction.userTextMsg t, PAAction.statusThinking, PAAction.llmCall t,
         PAAction.botTextMsg (PyVal.pair (llm t).1 (llm t).2), PAAction.statusSpeaking,
         PAAction.synthesisError, PAAction.completedMsg]
      else [PAAction.userTextMsg t, PAAction.statusThinking, PAAction.processError]), ?_, ?_⟩
    · cases inS <;> simp [process_audio, h, synthesizeAndSendVal]
    · intro u hu
      cases inS with
      | false => simp [process_audio, h, synthesizeAndSendVal] at hu
      | true =>
        simp [process_audio, h, synthesizeAndSendVal] at hu ⊢
        simp [hu]

theorem transcript_cancel_discipline_witness :
    PAAction.cancelTimeout ∈
      process_audio ['h', 'i'] true (fun _ => (['o', 'k'], false)) 5 (fun _ => none) := by
  have h := (transcript_cancel_discipline ['h', 'i'] true (fun _ => (['o', 'k'], false)) 5
    (fun _ => none)).2 (by decide)
  rcases h with ⟨rest, hshape, _⟩
  rw [hshape]
  simp

/-- C5 (the code violates the claim): process_audio stores the value
returned by chat_completion — the (reply text, interview-ended) tuple —
without unpacking it, so the bot_text event carries the tuple and not
exactly the reply text, and the same tuple (not the reply text) is what
reaches _synthesize_and_send_audio, whose chunker then raises on
tuple.strip() and the turn reports a synthesis error instead of sending
any audio chunk.  Evaluated here on a concrete turn: transcript "hi",
reply "Hi", no failure of the synthesis engine itself. -/
theorem bot_text_payload_is_tuple :
    (PAAction.botTextMsg (PyVal.pair ['H', 'i'] false) ∈
      process_audio ['h', 'i'] true (fun _ => (['H', 'i'], false)) 5 (fun _ => some ['x'])) ∧
    (PAAction.botTextMsg (PyVal.str ['H', 'i']) ∉
      process_audio ['h', 'i'] true (fun _ => (['H', 'i'], false)) 5 (fun _ => some ['x'])) ∧
    (PAAction.synthesisError ∈
      process_audio ['h', 'i'] true (fun _ => (['H', 'i'], false)) 5 (fun _ => some ['x'])) ∧
    (∀ i total, PAAction.audioChunkMsg i total ∉
      process_audio ['h', 'i'] true (fun _ => (['H', 'i'], false)) 5 (fun _ => some ['x'])) := by
  refine ⟨by decide, by decide, by decide, ?_⟩
  intro i total hmem
  have hne : pstrip ['h', 'i'] = ['h', 'i'] := by decide
  simp [process_audio, synthesizeAndSendVal, hne] at hmem

/-- The indices of the audio chunks emitted by a turn's delivery. -/
def audioIndices (acts : List PAAction) : List Nat :=
  acts.filterMap (fun a => match a with | .audioChunkMsg i _ => some i | _ => none)

theorem audioIndices_append (a b : List PAAction) :
    audioIndices (a ++ b) = audioIndices a ++ audioIndices b :=
  List.filterMap_append a b _

theorem sendChunks_indices (total : Nat) (synth : Nat → Option (List Char)) :
    ∀ (l : List (List Char)) (i : Nat),
      audioIndices (sendChunks total synth i l) =
        ((List.range l.length).map (· + i)).filter (fun j => (synth j).isSome)
  | [], i => by simp [sendChunks, audioIndices]
  | x :: l, i => by
    simp only [sendChunks]
    rw [audioIndices_append, sendChunks_indices total synth l (i + 1)]
    cases hsyn : synth i with
    | none =>
      simp only [List.length_cons, List.range_succ_eq_map, List.map_cons, List.filter_cons,
        Nat.zero_add, hsyn, Option.isSome_none, Bool.false_eq_true, if_false]
      rw [List.map_map]
      have hmap : (List.range l.length).map ((· + i) ∘ Nat.succ) =
          (List.range l.length).map (· + (i + 1)) :=
        List.map_congr_left (fun a _ => by simp; omega)
      rw [hmap]
      simp [audioIndices]
    | some v =>
      simp only [List.length_cons, List.range_succ_eq_map, List.map_cons, List.filter_cons,
        Nat.zero_add, hsyn, Option.isSome_some, if_true]
      rw [List.map_map]
      have hmap : (List.range l.length).map ((· + i) ∘ Nat.succ) =
          (List.range l.length).map (· + (i + 1)) :=
        List.map_congr_left (fun a _ => by simp; omega)
      rw [hmap]
      simp [audioIndices]

theorem sendChunks_no_completed (total : Nat) (synth : Nat → Option (List Char)) :
    ∀ (l : List (List Char)) (i : Nat),
      PAAction.completedMsg ∉ sendChunks total synth i l
  | [], i => by simp [sendChunks]
  | x :: l, i => by
    simp only [sendChunks]
    intro hmem
    rcases List.mem_append.mp hmem with h | h
    · cases hsyn : synth i <;> rw [hsyn] at h <;> simp at h
    · exact sendChunks_no_completed total synth l (i + 1) h

/-- C7: for every fragment sequence delivered by the streamed synthesis
pipeline of a turn (_synthesize_and_send_audio followed by the completed
message), the audio chunks emitted are exactly those whose synthesis
call succeeded, in their original index order — a failed fragment is
skipped without aborting the remaining fragments — and the completion
signal is emitted exactly once, after the last fragment has been handed
off. -/
theorem pipeline_skip_order_completion (maxLen : Nat) (text : List Char)
    (synth : Nat → Option (List Char)) :
    audioIndices (deliverTurn maxLen text synth) =
      (List.range (split_text_into_chunks maxLen text).length).filter
        (fun i => (synth i).isSome) ∧
    (deliverTurn maxLen text synth).count PAAction.completedMsg = 1 ∧
    (deliverTurn maxLen text synth).getLast? = some PAAction.completedMsg := by
  refine ⟨?_, ?_, List.getLast?_concat _⟩
  · unfold deliverTurn synthesizeAndSend
    rw [audioIndices_append, sendChunks_indices]
    have hmap : (List.range (split_text_into_chunks maxLen text).length).map (· + 0) =
        List.range (split_text_into_chunks maxLen text).length := by
      simp
    rw [hmap]
    simp [audioIndices]
  · unfold deliverTurn
    rw [List.count_append]
    have h0 : (synthesizeAndSend maxLen text synth).count PAAction.completedMsg = 0 :=
      List.count_eq_zero.mpr (sendChunks_no_completed _ _ _ _)
    rw [h0]
    rfl

/-! ### Completion client: atomicity, statefulness, history bounds -/

/-- C10: chat_completion is total and atomic on external failure: when
the completions call raises, the returned text is the API-error string
with the interview-ended flag false, and the client state — the
conversation history and the completed flag — is returned exactly as it
was before the call; when the interview is already completed, no request
is constructed at all. -/
theorem chat_completion_error_atomicity (st : LLMState) (u : List Char)
    (s : Option (List Char)) (e : List Char) :
    chat_completion st u s (fun _ => Except.error e) =
      ((if st.interview_completed then cannedReply else apiErrorText e,
        st.interview_completed), st,
       if st.interview_completed then none
       else some (buildMessages s st.conversation_history u)) := by
  by_cases h : st.interview_completed = true <;> simp [chat_completion, h]

/-- C4 counterexample: two chat_completion invocations with identical
arguments, identical retained conversation history (both empty) and the
same oracle reply differ in both the reply returned and the request
constructed when their retained interview_completed flags differ — the
call depends on client state beyond the supplied prior turns. -/
theorem completion_stateful_counterexample :
    (LLMState.mk [] false).conversation_history =
      (LLMState.mk [] true).conversation_history ∧
    (chat_completion ⟨[], false⟩ ['h', 'i'] none (fun _ => Except.ok ['o', 'k'])).1.1 ≠
      (chat_completion ⟨[], true⟩ ['h', 'i'] none (fun _ => Except.ok ['o', 'k'])).1.1 ∧
    (chat_completion ⟨[], false⟩ ['h', 'i'] none (fun _ => Except.ok ['o', 'k'])).2.2 ≠
      (chat_completion ⟨[], true⟩ ['h', 'i'] none (fun _ => Except.ok ['o', 'k'])).2.2 := by
  decide

/-- C4 (amended): the completion call is deterministic in exactly the
user message, the system message, the retained history and the retained
interview-completed flag: two client states agreeing on history and
flag produce identical requests and replies for identical arguments;
with the flag clear, the request constructed is exactly the enhanced
system message, the retained history and the new user message; with the
flag set, a fixed canned reply is returned and no request is made. -/
theorem completion_determinism_amended (st1 st2 : LLMState) (u : List Char)
    (s : Option (List Char)) (api : List Msg → Except (List Char) (List Char))
    (hh : st1.conversation_history = st2.conversation_history)
    (hf : st1.interview_completed = st2.interview_completed) :
    chat_completion st1 u s api = chat_completion st2 u s api ∧
    (st1.interview_completed = false →
      (chat_completion st1 u s api).2.2 =
        some (buildMessages s st1.conversation_history u)) ∧
    (st1.interview_completed = true →
      chat_completion st1 u s api = ((cannedReply, true), st1, none)) := by
  obtain ⟨h1, f1⟩ := st1
  obtain ⟨h2, f2⟩ := st2
  simp only at hh hf
  subst hh
  subst hf
  refine ⟨rfl, ?_, ?_⟩
  · intro hf1
    simp only at hf1
    subst hf1
    simp only [chat_completion, Bool.false_eq_true, if_false]
    cases api (buildMessages s h1 u) <;> simp
  · intro hf1
    simp only at hf1
    subst hf1
    simp [chat_completion]

theorem completion_determinism_amended_witness :
    (chat_completion ⟨[], false⟩ ['h', 'i'] none (fun _ => Except.ok ['o', 'k'])).2.2 =
      some (buildMessages none [] ['h', 'i']) :=
  (completion_determinism_amended ⟨[], false⟩ ⟨[], false⟩ ['h', 'i'] none
    (fun _ => Except.ok ['o', 'k']) rfl rfl).2.1 rfl

/-- C8: the conversation history is bounded and trim-aligned: a history
of even length at most 10 before a chat_completion call has even length
at most 10 after it; the post-call history is a suffix of the old
history with at most one new (user, assistant) pair appended, so the
trim only drops the oldest entries and entries are only ever appended
as a user/assistant pair. -/
theorem history_bounded_trim_aligned (st : LLMState) (u : List Char)
    (s : Option (List Char)) (api : List Msg → Except (List Char) (List Char))
    (heven : st.conversation_history.length % 2 = 0)
    (hcap : st.conversation_history.length ≤ 10) :
    ((chat_completion st u s api).2.1).conversation_history.length % 2 = 0 ∧
    ((chat_completion st u s api).2.1).conversation_history.length ≤ 10 ∧
    ∃ appended k,
      (appended = [] ∨ ∃ a, appended = [Msg.mk Role.user u, Msg.mk Role.assistant a]) ∧
      ((chat_completion st u s api).2.1).conversation_history =
        (st.conversation_history ++ appended).drop k := by
  by_cases hc : st.interview_completed = true
  · simp only [chat_completion, hc, if_true]
    exact ⟨heven, hcap, [], 0, Or.inl rfl, by simp⟩
  · simp only [chat_completion, hc, if_false]
    cases hapi : api (buildMessages s st.conversation_history u) with
    | error e =>
      simp only
      exact ⟨heven, hcap, [], 0, Or.inl rfl, by simp⟩
    | ok content =>
      simp only
      set a := if endMarker.isPrefixOf content then pstrip (removeMarker content) else content
        with ha
      by_cases hlen : 10 < st.conversation_history.length + 2
      · have hl : st.conversation_history.length = 10 := by omega
        refine ⟨?_, ?_, [Msg.mk Role.user u, Msg.mk Role.assistant a], 2, Or.inr ⟨a, rfl⟩, ?_⟩
        · simp [hlen, hl]
        · simp [hlen, hl]
        · simp [hlen, hl]
      · refine ⟨?_, ?_, [Msg.mk Role.user u, Msg.mk Role.assistant a], 0, Or.inr ⟨a, rfl⟩, ?_⟩
        · simp [hlen]
          omega
        · simp [hlen]
          omega
        · simp [hlen]

theorem history_bounded_trim_aligned_witness :
    ((chat_completion ⟨[], false⟩ ['h', 'i'] none
        (fun _ => Except.ok ['o', 'k'])).2.1).conversation_history.length % 2 = 0 ∧
    ((chat_completion ⟨[], false⟩ ['h', 'i'] none
        (fun _ => Except.ok ['o', 'k'])).2.1).conversation_history.length ≤ 10 ∧
    ∃ appended k,
      (appended = [] ∨
        ∃ a, appended = [Msg.mk Role.user ['h', 'i'], Msg.mk Role.assistant a]) ∧
      ((chat_completion ⟨[], false⟩ ['h', 'i'] none
          (fun _ => Except.ok ['o', 'k'])).2.1).conversation_history =
        (([] : List Msg) ++ appended).drop k :=
  history_bounded_trim_aligned ⟨[], false⟩ ['h', 'i'] none (fun _ => Except.ok ['o', 'k'])
    (by decide) (by decide)

end VoiceBot
